import Mathlib

/-!
Verification of the in-memory repository pair of this repository:
`InMemoryWorkflowExecutionRepository` and
`InMemoryWorkflowNodeExecutionRepository`
(`api/core/repositories/in_memory_workflow_execution_repository.py` and
`api/core/repositories/in_memory_workflow_node_execution_repository.py`).

The two repository classes are embedded shallowly: Python dictionaries
become association lists that keep insertion order, `save`/`get`/
`get_by_workflow_run`/`get_running_executions`/`clear` become pure
functions on a state record, and `list.sort` (Python's stable sort, with
the `key=...` / `reverse=...` parameters used by the source) becomes a
stable insertion sort.  Stable sorts of a list by a total preorder are
unique, so insertion sort is an exact model of CPython's Timsort on the
inputs where sorting succeeds.

Python's dynamic comparison can raise `TypeError` when values of
different types are compared (for example `"" < 3`).  The sort key used
by the source, `getattr(x, sort_field, "") or ""`, yields either a string
or a non-string value, so sorting is modelled with a partial comparison:
`pyLe` returns `none` exactly on a cross-type comparison, and the sorting
functions propagate `none` the way an exception propagates.  On a list
whose keys mix both types, any comparison sort (Timsort included) must
evaluate at least one cross-type comparison, so `none` results coincide
with a Python `TypeError`.
-/

open scoped List

/-- The empty string, Python's falsy string and the sort-key sentinel. -/
def emptyStr : String := ""

/-- A Python attribute value as it is used by the repository's sort key
function: either a string or a non-string orderable value (`int`,
`datetime`, ... are all modelled as `Int`, which preserves their order
and the fact that comparing them with a string raises). -/
inductive PyVal where
  | vStr (s : String)
  | vInt (n : Int)
deriving DecidableEq, Repr

/-- Tag of a `PyVal`: `true` for strings, `false` for non-strings.  Two
values can be compared by Python's `<` exactly when their tags agree. -/
def PyVal.tag : PyVal → Bool
  | .vStr _ => true
  | .vInt _ => false

/-- Python truthiness of an attribute value: the empty string and `0` are
falsy, everything else is truthy (`None` is mapped to `vStr ""` before
this function is ever applied, see `sortKey`). -/
def PyVal.truthy : PyVal → Bool
  | .vStr s => !(s == "")
  | .vInt n => !(n == 0)

/-- The sentinel sort key produced for missing attributes and falsy
values. -/
def sentinel : PyVal := .vStr emptyStr

/-- Lexicographic `≤` on lists of characters by code point, Python's
string comparison. -/
def charListLe : List Char → List Char → Bool
  | [], _ => true
  | _ :: _, [] => false
  | a :: s, b :: t =>
    if a.toNat < b.toNat then true
    else if b.toNat < a.toNat then false
    else charListLe s t

/-- Python's `s <= t` on strings: code-point lexicographic order. -/
def strLe (s t : String) : Bool :=
  charListLe s.data t.data

/-- Total extension of the comparison used for sort keys: on equal tags
it is Python's `<=`; across tags it is an arbitrary total order (strings
first).  Only applied under an equal-tags hypothesis. -/
def pvLeB : PyVal → PyVal → Bool
  | .vStr s, .vStr t => strLe s t
  | .vInt m, .vInt n => decide (m ≤ n)
  | .vStr _, .vInt _ => true
  | .vInt _, .vStr _ => false

/-- Python's partial `<=` on sort keys: `none` models the `TypeError`
raised on a cross-type comparison. -/
def pyLe (a b : PyVal) : Option Bool :=
  if a.tag = b.tag then some (pvLeB a b) else none

/-- Status enumeration of a node execution (spec §3: RUNNING, SUCCEEDED,
FAILED, STOPPED, EXCEPTION).  The Python class is a string enum; `toPy`
is the string value used when sorting by the `status` attribute. -/
inductive WorkflowNodeExecutionStatus where
  | running
  | succeeded
  | failed
  | stopped
  | exception_
deriving DecidableEq, Repr

def WorkflowNodeExecutionStatus.toPy : WorkflowNodeExecutionStatus → String
  | .running => "running"
  | .succeeded => "succeeded"
  | .failed => "failed"
  | .stopped => "stopped"
  | .exception_ => "exception"

/-- Status enumeration of a workflow execution (spec §3). -/
inductive WorkflowExecutionStatus where
  | running
  | succeeded
  | failed
  | stopped
deriving DecidableEq, Repr

/-- Trigger source of a node execution. -/
inductive WorkflowNodeExecutionTriggeredFrom where
  | single_step
  | workflow_run
deriving DecidableEq, Repr

/-- Trigger source of a workflow execution. -/
inductive WorkflowRunTriggeredFrom where
  | debugging
  | app_run
deriving DecidableEq, Repr

/-- Role of the creating user. -/
inductive CreatorUserRole where
  | account
  | end_user
deriving DecidableEq, Repr

/-- Modelled from the spec: the `WorkflowExecution` domain entity
(spec §3, "ExecutionRecord"); the entity class itself
(`core.workflow.entities.workflow_execution`) is not under `src/`.
Timestamps are modelled as integers; the structured documents (graph,
inputs, outputs) are omitted because no repository operation inspects
them and no claim mentions them. -/
structure WorkflowExecution where
  id_ : String
  workflow_id : String
  workflow_version : String
  status : WorkflowExecutionStatus
  error : Option String
  total_tokens : Int
  total_steps : Int
  exception_count : Int
  started_at : Int
  finished_at : Option Int
deriving DecidableEq, Repr

/-- Modelled from the spec: the `WorkflowNodeExecution` domain entity
(spec §3, "NodeExecutionRecord"); the entity class itself
(`core.workflow.entities.workflow_node_execution`) is not under `src/`.
Timestamps (`created_at`, `finished_at`) are modelled as integers, which
keeps their order and their non-string type; `elapsed_time` (a float)
and the structured documents (inputs, process data, outputs, metadata)
are omitted because no claim sorts or filters on them. -/
structure WorkflowNodeExecution where
  id : String
  workflow_id : String
  node_execution_id : String
  workflow_execution_id : Option String
  index : Int
  predecessor_node_id : Option String
  node_id : String
  node_type : String
  title : String
  status : WorkflowNodeExecutionStatus
  error : Option String
  created_at : Int
  finished_at : Option Int
deriving DecidableEq, Repr

/-- The raw Python value of `getattr(x, field, "")` on a node execution:
optional attributes whose value is `None`, and attribute names that do
not exist on the record type, both give the falsy default that the `or`
coercion of `sortKey` maps to the sentinel anyway. -/
def pyAttr (x : WorkflowNodeExecution) (field : String) : PyVal :=
  if field = "id" then .vStr x.id
  else if field = "workflow_id" then .vStr x.workflow_id
  else if field = "node_execution_id" then .vStr x.node_execution_id
  else if field = "workflow_execution_id" then .vStr (x.workflow_execution_id.getD emptyStr)
  else if field = "index" then .vInt x.index
  else if field = "predecessor_node_id" then .vStr (x.predecessor_node_id.getD emptyStr)
  else if field = "node_id" then .vStr x.node_id
  else if field = "node_type" then .vStr x.node_type
  else if field = "title" then .vStr x.title
  else if field = "status" then .vStr x.status.toPy
  else if field = "error" then .vStr (x.error.getD emptyStr)
  else if field = "created_at" then .vInt x.created_at
  else if field = "finished_at" then
    match x.finished_at with
    | some t => .vInt t
    | none => sentinel
  else sentinel

/-- The sort key of the source
(`in_memory_workflow_node_execution_repository.py`, line 170):
`getattr(x, sort_field, "") or ""`.  A missing attribute and any falsy
value (`None`, `0`, `""`) give the empty-string sentinel. -/
def sortKey (x : WorkflowNodeExecution) (field : String) : PyVal :=
  let v := pyAttr x field
  if v.truthy then v else sentinel

/-- Lookup in an insertion-ordered association list (a Python `dict`). -/
def alistGet (k : String) : List (String × α) → Option α
  | [] => none
  | p :: t => if p.1 = k then some p.2 else alistGet k t

/-- Update/insert in an insertion-ordered association list: an existing
key keeps its position (as a Python `dict` does), a new key is appended. -/
def alistPut (k : String) (v : α) : List (String × α) → List (String × α)
  | [] => [(k, v)]
  | p :: t => if p.1 = k then (k, v) :: t else p :: alistPut k v t

/-!  ## Stable sorting

`insB le a l` inserts `a` before the first element `b` of `l` with
`le a b`; `sortB` is the resulting stable insertion sort.  `insE`/`sortE`
are the same algorithm over the partial comparison, propagating `none`
(the modelled `TypeError`) like an exception.
-/

/-- Stable insertion of one element (total comparison). -/
def insB (le : α → α → Bool) (a : α) : List α → List α
  | [] => [a]
  | b :: t => if le a b then a :: b :: t else b :: insB le a t

/-- Stable insertion sort (total comparison). -/
def sortB (le : α → α → Bool) : List α → List α
  | [] => []
  | a :: t => insB le a (sortB le t)

/-- Stable insertion of one element (partial comparison); `none` is a
raised `TypeError`. -/
def insE (le : α → α → Option Bool) (a : α) : List α → Option (List α)
  | [] => some [a]
  | b :: t =>
    match le a b with
    | none => none
    | some true => some (a :: b :: t)
    | some false => (insE le a t).map (b :: ·)

/-- Stable insertion sort (partial comparison). -/
def sortE (le : α → α → Option Bool) : List α → Option (List α)
  | [] => some []
  | a :: t => (sortE le t).bind (insE le a)

/-- Lexicographic combination of two comparisons: compare by `le1`,
break `le1`-ties by `le2`. -/
def lexC (le1 le2 : α → α → Bool) (a b : α) : Bool :=
  if le1 a b && le1 b a then le2 a b else le1 a b

/-- The equivalence induced by a total preorder. -/
def eqvOf (le : α → α → Bool) (a b : α) : Bool :=
  le a b && le b a

/-- Stability relation `PairsKept R l m`: every `R`-related pair that occurs in order in `l`
still occurs in that order in `m` — the stability relation between the
input and the output of a stable sort. -/
def PairsKept (R : α → α → Bool) (l m : List α) : Prop :=
  ∀ x y, R x y = true → List.Sublist [x, y] l → List.Sublist [x, y] m

/-- One stable-sort pass per criterion, last criterion first — the
source's `for sort_field in reversed(order_config.order_by):
result.sort(...)` (total-comparison version). -/
def multiPassB (rel : ι → α → α → Bool) : List ι → List α → List α
  | [], l => l
  | f :: rest, l => sortB (rel f) (multiPassB rel rest l)

/-- One stable-sort pass per criterion, last criterion first, over the
partial comparison; a raise in any pass aborts the whole call. -/
def multiPassE (rel : ι → α → α → Option Bool) : List ι → List α → Option (List α)
  | [], l => some l
  | f :: rest, l => (multiPassE rel rest l).bind (sortE (rel f))

/-- The lexicographic multi-criterion comparison: the first criterion in
the list is the most significant, later ones break ties. -/
def lexList (rel : ι → α → α → Bool) : List ι → α → α → Bool
  | [] => fun _ _ => true
  | f :: rest => lexC (rel f) (lexList rel rest)

/-!  ## The repositories

Both repository classes, embedded from
`in_memory_workflow_execution_repository.py` and
`in_memory_workflow_node_execution_repository.py`.
-/

/-- The error message raised by `__init__` when no tenant id can be
resolved. -/
def noTenantMsg : String := "User must have a tenant_id or current_tenant_id"

/-- Modelled from the spec: the ordering request shape consumed by
`get_by_workflow_run` (spec §6) — an ordered list of field names and a
direction string; the class `OrderConfig` itself is not under `src/`. -/
structure OrderConfig where
  order_by : List String
  order_direction : String
deriving DecidableEq, Repr

/-- Modelled from the spec: the caller identity (spec §3/§6) — an
authenticated account carrying a current-tenant identifier or an
anonymous end user carrying a direct tenant identifier; the `Account`
and `EndUser` model classes are not under `src/`. -/
inductive RepoUser where
  | account (id : String) (current_tenant_id : Option String)
  | end_user (id : String) (tenant_id : Option String)
deriving DecidableEq, Repr

/-- The source's `user.tenant_id if isinstance(user, EndUser) else
user.current_tenant_id`. -/
def RepoUser.resolvedTenant : RepoUser → Option String
  | .account _ t => t
  | .end_user _ t => t

def RepoUser.userId : RepoUser → String
  | .account i _ => i
  | .end_user i _ => i

/-- The source's `CreatorUserRole.ACCOUNT if isinstance(user, Account)
else CreatorUserRole.END_USER`. -/
def RepoUser.role : RepoUser → CreatorUserRole
  | .account _ _ => .account
  | .end_user _ _ => .end_user

/-- Python truthiness of an optional string: `None` and `""` are falsy. -/
def optTruthy : Option String → Bool
  | none => false
  | some s => !(s == "")

/-- State of one `InMemoryWorkflowExecutionRepository` instance: the
context captured by `__init__` plus the two instance dictionaries. -/
structure InMemoryWorkflowExecutionRepository where
  tenant_id : String
  app_id : Option String
  triggered_from : Option WorkflowRunTriggeredFrom
  creator_user_id : String
  creator_user_role : CreatorUserRole
  executions : List (String × WorkflowExecution)
  sequence_counters : List ((String × String) × Int)
deriving DecidableEq, Repr

/-- State of one `InMemoryWorkflowNodeExecutionRepository` instance: the
context captured by `__init__`, the primary store `_executions` and the
secondary index `_workflow_run_index`. -/
structure InMemoryWorkflowNodeExecutionRepository where
  tenant_id : String
  app_id : Option String
  triggered_from : Option WorkflowNodeExecutionTriggeredFrom
  creator_user_id : String
  creator_user_role : CreatorUserRole
  executions : List (String × WorkflowNodeExecution)
  workflow_run_index : List (String × List String)
deriving DecidableEq, Repr

/-- Constructor (`__init__`) of the execution repository: extract the tenant id from
the user, fail when it is falsy, start with empty instance storage. -/
def InMemoryWorkflowExecutionRepository.init (user : RepoUser)
    (app_id : Option String) (triggered_from : Option WorkflowRunTriggeredFrom) :
    Except String InMemoryWorkflowExecutionRepository :=
  if optTruthy user.resolvedTenant then
    .ok
      { tenant_id := user.resolvedTenant.getD emptyStr
        app_id := app_id
        triggered_from := triggered_from
        creator_user_id := user.userId
        creator_user_role := user.role
        executions := []
        sequence_counters := [] }
  else .error noTenantMsg

/-- Constructor (`__init__`) of the node-execution repository. -/
def InMemoryWorkflowNodeExecutionRepository.init (user : RepoUser)
    (app_id : Option String)
    (triggered_from : Option WorkflowNodeExecutionTriggeredFrom) :
    Except String InMemoryWorkflowNodeExecutionRepository :=
  if optTruthy user.resolvedTenant then
    .ok
      { tenant_id := user.resolvedTenant.getD emptyStr
        app_id := app_id
        triggered_from := triggered_from
        creator_user_id := user.userId
        creator_user_role := user.role
        executions := []
        workflow_run_index := [] }
  else .error noTenantMsg

/-- Method `save` of the execution repository: upsert when `id_` is truthy,
silent no-op (one warning log, no state change) otherwise. -/
def InMemoryWorkflowExecutionRepository.save
    (r : InMemoryWorkflowExecutionRepository) (e : WorkflowExecution) :
    InMemoryWorkflowExecutionRepository :=
  if e.id_ = "" then r
  else { r with executions := alistPut e.id_ e r.executions }

/-- Method `_matches_constraints` of the execution repository: always `True`
(the tenant/app filtering seam). -/
def InMemoryWorkflowExecutionRepository.matchesConstraints
    (_r : InMemoryWorkflowExecutionRepository) (_e : WorkflowExecution) : Bool :=
  true

/-- Method `get` of the execution repository: point lookup guarded by the
constraint check. -/
def InMemoryWorkflowExecutionRepository.get
    (r : InMemoryWorkflowExecutionRepository) (execution_id : String) :
    Option WorkflowExecution :=
  match alistGet execution_id r.executions with
  | some e => if r.matchesConstraints e then some e else none
  | none => none

/-- Method `_matches_constraints` of the node-execution repository: always
`True`. -/
def InMemoryWorkflowNodeExecutionRepository.matchesConstraints
    (_r : InMemoryWorkflowNodeExecutionRepository) (_e : WorkflowNodeExecution) : Bool :=
  true

/-- The source's `if execution.workflow_execution_id not in self._workflow_run_index:
self._workflow_run_index[execution.workflow_execution_id] = []`. -/
def ensureBucket (idx : List (String × List String)) (wid : String) :
    List (String × List String) :=
  match alistGet wid idx with
  | none => alistPut wid [] idx
  | some _ => idx

/-- The source's `if execution.node_execution_id not in self._workflow_run_index[wid]:
self._workflow_run_index[wid].append(execution.node_execution_id)`. -/
def addToBucket (idx : List (String × List String)) (wid nid : String) :
    List (String × List String) :=
  let b := (alistGet wid idx).getD []
  if nid ∈ b then idx else alistPut wid (b ++ [nid]) idx

/-- Method `save` of the node-execution repository: when `node_execution_id` is
truthy, upsert into the primary store and, when `workflow_execution_id`
is also truthy, create the index bucket if absent and append the id to
it only if not already present; otherwise a silent no-op. -/
def InMemoryWorkflowNodeExecutionRepository.save
    (r : InMemoryWorkflowNodeExecutionRepository) (e : WorkflowNodeExecution) :
    InMemoryWorkflowNodeExecutionRepository :=
  if e.node_execution_id = "" then r
  else
    let execs := alistPut e.node_execution_id e r.executions
    match e.workflow_execution_id with
    | none => { r with executions := execs }
    | some wid =>
      if wid = "" then { r with executions := execs }
      else
        { r with
          executions := execs
          workflow_run_index :=
            addToBucket (ensureBucket r.workflow_run_index wid) wid
              e.node_execution_id }

/-- Method `get_by_node_execution_id`: point lookup guarded by the constraint
check. -/
def InMemoryWorkflowNodeExecutionRepository.get_by_node_execution_id
    (r : InMemoryWorkflowNodeExecutionRepository) (node_execution_id : String) :
    Option WorkflowNodeExecution :=
  match alistGet node_execution_id r.executions with
  | some e => if r.matchesConstraints e then some e else none
  | none => none

/-- The unsorted result of `get_by_workflow_run`: resolve the index
bucket (empty when absent), dereference each id through the primary
store, keep records passing the constraint check whose stored
`workflow_execution_id` equals the query key. -/
def baseRecords (r : InMemoryWorkflowNodeExecutionRepository)
    (workflow_execution_id : String) : List WorkflowNodeExecution :=
  ((alistGet workflow_execution_id r.workflow_run_index).getD []).filterMap
    fun nid =>
      match alistGet nid r.executions with
      | some e =>
        if r.matchesConstraints e
            && decide (e.workflow_execution_id = some workflow_execution_id)
        then some e else none
      | none => none

/-- The per-field comparison of one sort pass: keys via `sortKey`,
flipped when `reverse=is_desc` is set (CPython's stable descending
sort keeps equal elements in their original order, which is exactly a
stable sort by the flipped comparison). -/
def fieldLeO (desc : Bool) (f : String) (x y : WorkflowNodeExecution) :
    Option Bool :=
  if desc then pyLe (sortKey y f) (sortKey x f)
  else pyLe (sortKey x f) (sortKey y f)

/-- Total version of `fieldLeO` (used on the tag-uniform fragments where
the partial comparison cannot raise). -/
def fieldLeB (desc : Bool) (f : String) (x y : WorkflowNodeExecution) : Bool :=
  if desc then pvLeB (sortKey y f) (sortKey x f)
  else pvLeB (sortKey x f) (sortKey y f)

/-- Method `get_by_workflow_run`: the unsorted bucket result, then — when an
order config with a non-empty field list is supplied — one stable sort
pass per field, iterating the field list in reverse.  A `none` result is
a raised `TypeError` from a cross-type key comparison. -/
def InMemoryWorkflowNodeExecutionRepository.get_by_workflow_run
    (r : InMemoryWorkflowNodeExecutionRepository)
    (workflow_execution_id : String) (order_config : Option OrderConfig) :
    Option (List WorkflowNodeExecution) :=
  let result := baseRecords r workflow_execution_id
  match order_config with
  | none => some result
  | some cfg =>
    if cfg.order_by = [] then some result
    else multiPassE (fieldLeO (cfg.order_direction == "desc")) cfg.order_by result

/-- Method `get_running_executions`: `get_by_workflow_run` without ordering,
filtered to status `RUNNING`. -/
def InMemoryWorkflowNodeExecutionRepository.get_running_executions
    (r : InMemoryWorkflowNodeExecutionRepository)
    (workflow_execution_id : String) : Option (List WorkflowNodeExecution) :=
  (r.get_by_workflow_run workflow_execution_id none).map
    (List.filter fun e => decide (e.status = WorkflowNodeExecutionStatus.running))

/-- Method `clear`: empty both instance dictionaries of this instance. -/
def InMemoryWorkflowNodeExecutionRepository.clear
    (r : InMemoryWorkflowNodeExecutionRepository) :
    InMemoryWorkflowNodeExecutionRepository :=
  { r with executions := [], workflow_run_index := [] }

/-- A freshly constructed node-execution repository instance with a
fixed, arbitrary construction context (the context fields never
influence storage behaviour). -/
def freshNodeRepo : InMemoryWorkflowNodeExecutionRepository :=
  { tenant_id := "tenant-a"
    app_id := none
    triggered_from := some .workflow_run
    creator_user_id := "user-a"
    creator_user_role := .account
    executions := []
    workflow_run_index := [] }

/-- The store reached from a fresh instance by a sequence of `save`
calls. -/
def runSaves (es : List WorkflowNodeExecution) :
    InMemoryWorkflowNodeExecutionRepository :=
  es.foldl InMemoryWorkflowNodeExecutionRepository.save freshNodeRepo

/-!  ## Two independently constructed instances

`__init__` creates `self._executions = {}` and
`self._workflow_run_index = {}` afresh for each instance, so two
instances never share storage; the pair operations below model a process
holding two instances at once.
-/

/-- Operation `clear()` called on the first of two instances. -/
def clearFirst
    (w : InMemoryWorkflowNodeExecutionRepository × InMemoryWorkflowNodeExecutionRepository) :
    InMemoryWorkflowNodeExecutionRepository × InMemoryWorkflowNodeExecutionRepository :=
  (w.1.clear, w.2)

/-- Operation `save(e)` called on the second of two instances. -/
def saveSecond
    (w : InMemoryWorkflowNodeExecutionRepository × InMemoryWorkflowNodeExecutionRepository)
    (e : WorkflowNodeExecution) :
    InMemoryWorkflowNodeExecutionRepository × InMemoryWorkflowNodeExecutionRepository :=
  (w.1, w.2.save e)

/-- The application id of the second instance. -/
def appB : String := "app-b"

/-- A second fresh instance, constructed independently (different tenant
context). -/
def freshNodeRepoB : InMemoryWorkflowNodeExecutionRepository :=
  { tenant_id := "tenant-b"
    app_id := some appB
    triggered_from := some .single_step
    creator_user_id := "user-b"
    creator_user_role := .end_user
    executions := []
    workflow_run_index := [] }

/-!  ## Concrete records used by scenarios, witnesses and counterexamples -/

/-- The direction string `asc`. -/
def dirAsc : String := "asc"

/-- The direction string `desc`. -/
def dirDesc : String := "desc"

/-- The attribute name `index`. -/
def fieldIndex : String := "index"

/-- The attribute name `node_type`. -/
def fieldNodeType : String := "node_type"

/-- The attribute name `finished_at`. -/
def fieldFinishedAt : String := "finished_at"

/-- An attribute name that does not exist on the record type. -/
def fieldBogus : String := "non_existent_field"

/-- The run key shared by the scenario records. -/
def runKey : String := "run-1"

/-- The first run key of the stale-index pair. -/
def runKeyA : String := "run-a"

/-- The second run key of the stale-index pair. -/
def runKeyB : String := "run-b"

/-- A template node execution; concrete records below override the
distinguishing fields. -/
def baseNodeExec : WorkflowNodeExecution :=
  { id := "row-0"
    workflow_id := "wf-1"
    node_execution_id := "n0"
    workflow_execution_id := some runKey
    index := 1
    predecessor_node_id := none
    node_id := "node-0"
    node_type := "start"
    title := "node zero"
    status := .running
    error := none
    created_at := 0
    finished_at := none }

/-- Scenario of claim C4 / spec §8.10: three executions with `index`
values 3, 1, 2 under one run id, saved in that order. -/
def scenE3 : WorkflowNodeExecution :=
  { baseNodeExec with node_execution_id := "n3", index := 3, node_id := "node-3" }

def scenE1 : WorkflowNodeExecution :=
  { baseNodeExec with node_execution_id := "n1", index := 1, node_id := "node-1" }

def scenE2 : WorkflowNodeExecution :=
  { baseNodeExec with node_execution_id := "n2", index := 2, node_id := "node-2" }

/-- Two executions with the same `index`, used to separate CPython's
stable descending sort from the reversal of the ascending sort. -/
def tieA : WorkflowNodeExecution :=
  { baseNodeExec with node_execution_id := "tie-a", index := 1 }

def tieB : WorkflowNodeExecution :=
  { baseNodeExec with node_execution_id := "tie-b", index := 1 }

/-- Multi-key scenario of claim C5 (the unit test's data): `node_type`
values are the string values of the Python `NodeType` enum. -/
def mkStart : WorkflowNodeExecution :=
  { baseNodeExec with node_execution_id := "m1", index := 1, node_type := "start" }

def mkLlm : WorkflowNodeExecution :=
  { baseNodeExec with node_execution_id := "m2", index := 2, node_type := "llm" }

def mkKnow : WorkflowNodeExecution :=
  { baseNodeExec with
    node_execution_id := "m3"
    index := 3
    node_type := "knowledge-retrieval" }

/-- Claim C6's raising pair: one record still running (`finished_at` is
`None`, coerced to the empty-string sentinel) and one finished record
(`finished_at` a timestamp, a non-string key). -/
def finNone : WorkflowNodeExecution :=
  { baseNodeExec with node_execution_id := "fin-a", finished_at := none }

def finSome : WorkflowNodeExecution :=
  { baseNodeExec with
    node_execution_id := "fin-b"
    finished_at := some 5
    status := .succeeded }

/-- Claim C3's stale-index pair: the same `node_execution_id` saved first
under run `"run-a"`, then re-saved under run `"run-b"`. -/
def staleV1 : WorkflowNodeExecution :=
  { baseNodeExec with node_execution_id := "n-move", workflow_execution_id := some runKeyA }

def staleV2 : WorkflowNodeExecution :=
  { baseNodeExec with node_execution_id := "n-move", workflow_execution_id := some runKeyB }

/-- A record with an empty identity (claim C7). -/
def noIdNodeExec : WorkflowNodeExecution :=
  { baseNodeExec with node_execution_id := "" }

/-- A concrete workflow execution (claims C1 and C7). -/
def sampleWfExec : WorkflowExecution :=
  { id_ := "exec-1"
    workflow_id := "wf-1"
    workflow_version := "1"
    status := .running
    error := none
    total_tokens := 0
    total_steps := 0
    exception_count := 0
    started_at := 0
    finished_at := none }

/-- The same workflow execution with an empty identity (claim C7). -/
def noIdWfExec : WorkflowExecution :=
  { sampleWfExec with id_ := "" }

/-- A fresh execution-repository instance. -/
def freshExecRepo : InMemoryWorkflowExecutionRepository :=
  { tenant_id := "tenant-a"
    app_id := none
    triggered_from := some .app_run
    creator_user_id := "user-a"
    creator_user_role := .account
    executions := []
    sequence_counters := [] }

/-- Ordering request: ascending by `index`. -/
def cfgIndexAsc : OrderConfig := { order_by := ["index"], order_direction := "asc" }

/-- Ordering request: descending by `index`. -/
def cfgIndexDesc : OrderConfig := { order_by := ["index"], order_direction := "desc" }

/-- Ordering request: ascending by `node_type`, ties by `index`. -/
def cfgTypeIndex : OrderConfig :=
  { order_by := ["node_type", "index"], order_direction := "asc" }

/-- Ordering request: ascending by `finished_at`. -/
def cfgFinished : OrderConfig :=
  { order_by := ["finished_at"], order_direction := "asc" }

/-- Ordering request: ascending by a field that does not exist on the
record type. -/
def cfgBogus : OrderConfig :=
  { order_by := ["non_existent_field"], order_direction := "asc" }

/-!  ## Predicates -/

/-- Totality of a Boolean comparison. -/
def TotalB (le : α → α → Bool) : Prop :=
  ∀ a b, le a b = true ∨ le b a = true

/-- Transitivity of a Boolean comparison. -/
def TransB (le : α → α → Bool) : Prop :=
  ∀ a b c, le a b = true → le b c = true → le a c = true

/-- Every record of the primary store sits under its own
`node_execution_id`. -/
def StoredOK (r : InMemoryWorkflowNodeExecutionRepository) : Prop :=
  ∀ nid e, alistGet nid r.executions = some e → e.node_execution_id = nid

/-- No index bucket contains a duplicate id. -/
def BucketsNodup (r : InMemoryWorkflowNodeExecutionRepository) : Prop :=
  ∀ k b, alistGet k r.workflow_run_index = some b → b.Nodup

/-- Every stored record with a truthy `workflow_execution_id` appears in
the bucket of that id. -/
def IndexComplete (r : InMemoryWorkflowNodeExecutionRepository) : Prop :=
  ∀ nid e wid, alistGet nid r.executions = some e →
    e.workflow_execution_id = some wid → wid ≠ "" →
    ∃ b, alistGet wid r.workflow_run_index = some b ∧ nid ∈ b

/-- Every id in any index bucket references some stored record. -/
def BucketsStored (r : InMemoryWorkflowNodeExecutionRepository) : Prop :=
  ∀ k b, alistGet k r.workflow_run_index = some b →
    ∀ nid ∈ b, ∃ e, alistGet nid r.executions = some e

/-- The store invariant maintained by every `save`. -/
def RepoInv (r : InMemoryWorkflowNodeExecutionRepository) : Prop :=
  StoredOK r ∧ BucketsNodup r ∧ IndexComplete r ∧ BucketsStored r


/-!  # Lemmas and theorems -/

/-!  ## Association lists -/

theorem alistGet_put_self (k : String) (v : α) (l : List (String × α)) :
    alistGet k (alistPut k v l) = some v := by
  induction l with
  | nil => simp [alistPut, alistGet]
  | cons p t ih =>
    by_cases h : p.1 = k
    · simp [alistPut, alistGet, h]
    · simp [alistPut, alistGet, h, ih]

theorem alistGet_put_ne (h : k2 ≠ k) (v : α) (l : List (String × α)) :
    alistGet k2 (alistPut k v l) = alistGet k2 l := by
  induction l with
  | nil => simp [alistPut, alistGet, Ne.symm h]
  | cons p t ih =>
    by_cases hp : p.1 = k
    · have hpk2 : ¬ p.1 = k2 := by rw [hp]; exact Ne.symm h
      simp [alistPut, alistGet, hp, Ne.symm h, hpk2]
    · by_cases hp2 : p.1 = k2
      · simp [alistPut, alistGet, hp, hp2, h]
      · simp [alistPut, alistGet, hp, hp2, ih]

/-!  ## The key order -/

theorem charListLe_total (s t : List Char) :
    charListLe s t = true ∨ charListLe t s = true := by
  induction s generalizing t with
  | nil => left; rfl
  | cons a s ih =>
    cases t with
    | nil => right; rfl
    | cons b t =>
      by_cases h1 : a.toNat < b.toNat
      · left; simp [charListLe, h1]
      · by_cases h2 : b.toNat < a.toNat
        · right; simp [charListLe, h1, h2]
        · have := ih t
          simpa [charListLe, h1, h2] using this

theorem charListLe_trans (s t u : List Char) (h1 : charListLe s t = true)
    (h2 : charListLe t u = true) : charListLe s u = true := by
  induction s generalizing t u with
  | nil => rfl
  | cons a s ih =>
    cases t with
    | nil => simp [charListLe] at h1
    | cons b t =>
      cases u with
      | nil => simp [charListLe] at h2
      | cons c u =>
        simp only [charListLe] at h1 h2 ⊢
        by_cases hab : a.toNat < b.toNat
        · by_cases hbc : b.toNat < c.toNat
          · have : a.toNat < c.toNat := Nat.lt_trans hab hbc
            simp [this]
          · by_cases hcb : c.toNat < b.toNat
            · simp [hbc, hcb] at h2
            · have hbceq : b.toNat = c.toNat := Nat.le_antisymm (Nat.le_of_not_lt hcb) (Nat.le_of_not_lt hbc)
              have : a.toNat < c.toNat := hbceq ▸ hab
              simp [this]
        · by_cases hba : b.toNat < a.toNat
          · simp [hab, hba] at h1
          · have habeq : a.toNat = b.toNat := Nat.le_antisymm (Nat.le_of_not_lt hba) (Nat.le_of_not_lt hab)
            by_cases hbc : b.toNat < c.toNat
            · have : a.toNat < c.toNat := habeq ▸ hbc
              simp [this]
            · by_cases hcb : c.toNat < b.toNat
              · simp [hbc, hcb] at h2
              · have hac : ¬ a.toNat < c.toNat := by omega
                have hca : ¬ c.toNat < a.toNat := by omega
                simp only [hab, hba, if_false, if_true] at h1
                simp only [hbc, hcb, if_false] at h2
                simp [hac, hca]
                exact ih t u h1 h2

theorem pvLeB_total : TotalB (pvLeB : PyVal → PyVal → Bool) := by
  intro a b
  cases a with
  | vStr s =>
    cases b with
    | vStr t => exact charListLe_total s.data t.data
    | vInt n => left; rfl
  | vInt m =>
    cases b with
    | vStr t => right; rfl
    | vInt n =>
      rcases Int.le_total m n with h | h
      · left; simpa [pvLeB] using h
      · right; simpa [pvLeB] using h

theorem pvLeB_trans : TransB (pvLeB : PyVal → PyVal → Bool) := by
  intro a b c h1 h2
  cases a with
  | vStr s =>
    cases c with
    | vStr u =>
      cases b with
      | vStr t => exact charListLe_trans _ _ _ h1 h2
      | vInt n => simp [pvLeB] at h2
    | vInt n => rfl
  | vInt m =>
    cases b with
    | vStr t => simp [pvLeB] at h1
    | vInt n =>
      cases c with
      | vStr u => simp [pvLeB] at h2
      | vInt p =>
        simp only [pvLeB, decide_eq_true_eq] at h1 h2 ⊢
        exact Int.le_trans h1 h2

theorem pyLe_eq_some (h : PyVal.tag a = PyVal.tag b) :
    pyLe a b = some (pvLeB a b) := by
  simp [pyLe, h]

/-!  ## Stable insertion sort: permutation, sortedness, stability -/

theorem insB_perm (le : α → α → Bool) (a : α) (l : List α) :
    insB le a l ~ a :: l := by
  induction l with
  | nil => exact List.Perm.refl _
  | cons b t ih =>
    by_cases h : le a b
    · simp [insB, h]
    · simp only [insB, h, if_false]
      exact (ih.cons b).trans (List.Perm.swap a b t)

theorem sortB_perm (le : α → α → Bool) (l : List α) : sortB le l ~ l := by
  induction l with
  | nil => exact List.Perm.refl _
  | cons a t ih => exact (insB_perm le a (sortB le t)).trans (ih.cons a)

theorem mem_sortB (le : α → α → Bool) (l : List α) (x : α) :
    x ∈ sortB le l ↔ x ∈ l :=
  (sortB_perm le l).mem_iff

theorem mem_insB (le : α → α → Bool) (a : α) (l : List α) (x : α) :
    x ∈ insB le a l ↔ x = a ∨ x ∈ l := by
  rw [(insB_perm le a l).mem_iff]
  simp

theorem insB_pairwise {α : Type _} {le : α → α → Bool} {l : List α}
    (htot : TotalB le) (htr : TransB le) (a : α)
    (hp : List.Pairwise (fun x y => le x y = true) l) :
    List.Pairwise (fun x y => le x y = true) (insB le a l) := by
  induction l with
  | nil => simp [insB]
  | cons b t ih =>
    rw [List.pairwise_cons] at hp
    obtain ⟨hb, ht⟩ := hp
    by_cases h : le a b
    · simp only [insB, h, if_true]
      refine List.Pairwise.cons ?_ (List.Pairwise.cons hb ht)
      intro z hz
      rcases List.mem_cons.mp hz with hz | hz
      · exact hz ▸ h
      · exact htr a b z h (hb z hz)
    · simp only [insB, h, if_false]
      refine List.Pairwise.cons ?_ (ih ht)
      intro z hz
      rcases (mem_insB le a t z).mp hz with hz | hz
      · rcases htot a b with h1 | h1
        · exact absurd h1 h
        · exact hz ▸ h1
      · exact hb z hz

theorem sortB_pairwise {α : Type _} {le : α → α → Bool}
    (htot : TotalB le) (htr : TransB le) (l : List α) :
    List.Pairwise (fun x y => le x y = true) (sortB le l) := by
  induction l with
  | nil => simp [sortB]
  | cons a t ih => exact insB_pairwise htot htr a ih

theorem insE_eq_insB (leO : α → α → Option Bool) (leB : α → α → Bool)
    (h : ∀ y ∈ l, leO a y = some (leB a y)) :
    insE leO a l = some (insB leB a l) := by
  induction l with
  | nil => rfl
  | cons b t ih =>
    have hb := h b (List.mem_cons_self b t)
    cases hab : leB a b
    · simp only [insE, insB, hb, hab, if_false]
      rw [ih fun y hy => h y (List.mem_cons_of_mem b hy)]
      rfl
    · simp [insE, insB, hb, hab]

theorem sortE_eq_sortB (leO : α → α → Option Bool) (leB : α → α → Bool)
    (h : ∀ x ∈ l, ∀ y ∈ l, leO x y = some (leB x y)) :
    sortE leO l = some (sortB leB l) := by
  induction l with
  | nil => rfl
  | cons a t ih =>
    simp only [sortE, sortB]
    rw [ih fun x hx y hy =>
      h x (List.mem_cons_of_mem a hx) y (List.mem_cons_of_mem a hy)]
    exact insE_eq_insB leO leB fun y hy =>
      h a (List.mem_cons_self a t) y
        (List.mem_cons_of_mem a ((mem_sortB leB t y).mp hy))

theorem insB_congr (f g : α → α → Bool) (a : α)
    (h : ∀ z ∈ l, f a z = g a z) : insB f a l = insB g a l := by
  induction l with
  | nil => rfl
  | cons b t ih =>
    have hb := h b (List.mem_cons_self b t)
    by_cases hf : f a b
    · simp [insB, hf, hb ▸ hf]
    · have hg : ¬ g a b = true := hb ▸ hf
      simp only [insB, hf, hg, if_false]
      rw [ih fun z hz => h z (List.mem_cons_of_mem b hz)]

/-- The radix step: on a list that is already sorted by the secondary
criterion, a stable sort by the primary criterion coincides with a
stable sort by the lexicographic combination. -/
theorem sortB_radix (le1 le2 : α → α → Bool)
    (h : List.Pairwise (fun x y => le2 x y = true) s) :
    sortB le1 s = sortB (lexC le1 le2) s := by
  induction s with
  | nil => rfl
  | cons x xs ih =>
    rw [List.pairwise_cons] at h
    obtain ⟨hx, hxs⟩ := h
    simp only [sortB]
    rw [ih hxs]
    apply insB_congr
    intro z hz
    have h2 : le2 x z = true := hx z ((mem_sortB _ xs z).mp hz)
    by_cases hc : le1 x z && le1 z x
    · have h1 : le1 x z = true := (Bool.and_eq_true _ _).mp hc |>.1
      simp [lexC, hc, h1, h2]
    · simp [lexC, hc]

theorem sublist_insB_self (le : α → α → Bool) (a : α) (l : List α) :
    l <+ insB le a l := by
  induction l with
  | nil => simp [insB]
  | cons b t ih =>
    by_cases hb : le a b
    · simp only [insB, hb, if_true]
      exact List.Sublist.cons a (List.Sublist.refl _)
    · simp only [insB, hb, if_false]
      exact List.Sublist.cons₂ b ih

theorem sublist_insB (le : α → α → Bool) (a : α) (h : s <+ l) :
    s <+ insB le a l :=
  h.trans (sublist_insB_self le a l)

theorem insB_pair_of_mem (le : α → α → Bool) (hy : y ∈ l)
    (hle : le a y = true) : [a, y] <+ insB le a l := by
  induction l with
  | nil => simp at hy
  | cons b t ih =>
    by_cases h : le a b
    · simp only [insB, h, if_true]
      exact List.Sublist.cons₂ a (List.singleton_sublist.mpr hy)
    · simp only [insB, h, if_false]
      rcases List.mem_cons.mp hy with hyb | hyt
      · exact absurd (hyb ▸ hle) h
      · exact List.Sublist.cons b (ih hyt)

/-- Forward stability of the stable insertion sort: a pair that is
equivalent under the comparison keeps its relative order. -/
theorem sortB_stable (le : α → α → Bool) (hxy : le x y = true)
    (h : [x, y] <+ l) : [x, y] <+ sortB le l := by
  induction l with
  | nil => simp at h
  | cons a t ih =>
    cases h with
    | cons _ h1 => exact sublist_insB le a (ih h1)
    | cons₂ _ h1 =>
      exact insB_pair_of_mem le ((mem_sortB le t y).mpr
        (List.singleton_sublist.mp h1)) hxy

theorem pair_sublist_or (hx : x ∈ l) (hy : y ∈ l) (hne : x ≠ y) :
    [x, y] <+ l ∨ [y, x] <+ l := by
  induction l with
  | nil => simp at hx
  | cons a t ih =>
    rcases List.mem_cons.mp hx with hxa | hxt
    · have hyt : y ∈ t := by
        rcases List.mem_cons.mp hy with hya | hyt
        · exact absurd (hxa.trans hya.symm) hne
        · exact hyt
      subst hxa
      exact Or.inl (List.Sublist.cons₂ x (List.singleton_sublist.mpr hyt))
    · rcases List.mem_cons.mp hy with hya | hyt
      · subst hya
        exact Or.inr (List.Sublist.cons₂ y (List.singleton_sublist.mpr hxt))
      · exact (ih hxt hyt).imp (List.Sublist.cons a) (List.Sublist.cons a)

theorem pair_sublist_antisymm (hnd : l.Nodup) (h1 : [x, y] <+ l)
    (h2 : [y, x] <+ l) : x = y := by
  induction l with
  | nil => simp at h1
  | cons a t ih =>
    rw [List.nodup_cons] at hnd
    obtain ⟨hna, hnt⟩ := hnd
    cases h1 with
    | cons _ h1' =>
      cases h2 with
      | cons _ h2' => exact ih hnt h1' h2'
      | cons₂ _ h2' =>
        exact absurd (h1'.subset (show y ∈ [x, y] by simp)) hna
    | cons₂ _ h1' =>
      cases h2 with
      | cons _ h2' =>
        exact absurd (h2'.subset (show x ∈ [y, x] by simp)) hna
      | cons₂ _ h2' => rfl

/-- Backward stability: under `Nodup`, an equivalent pair in sorted
order was already in that order in the input. -/
theorem sortB_stable_rev [DecidableEq α] {x y : α} (le : α → α → Bool)
    (hnd : l.Nodup) (hxy : le x y = true) (hyx : le y x = true)
    (h : [x, y] <+ sortB le l) : [x, y] <+ l := by
  have hnds : (sortB le l).Nodup := ((sortB_perm le l).nodup_iff).mpr hnd
  by_cases hne : x = y
  · subst hne
    exfalso
    have hcount : List.count x [x, x] ≤ List.count x (sortB le l) :=
      h.count_le x
    rw [(sortB_perm le l).count_eq] at hcount
    have h1 : List.count x l ≤ 1 := List.nodup_iff_count_le_one.mp hnd x
    simp [List.count_cons] at hcount
    omega
  · have hxl : x ∈ l := (mem_sortB le l x).mp (h.subset (by simp))
    have hyl : y ∈ l := (mem_sortB le l y).mp (h.subset (by simp))
    rcases pair_sublist_or hxl hyl hne with hp | hp
    · exact hp
    · exact absurd (pair_sublist_antisymm hnds h (sortB_stable le hyx hp)) hne

/-!  ## The lexicographic combination -/

theorem lexC_total {α : Type _} {le1 le2 : α → α → Bool}
    (h1 : TotalB le1) (h2 : TotalB le2) : TotalB (lexC le1 le2) := by
  intro a b
  cases hab : le1 a b <;> cases hba : le1 b a
  · rcases h1 a b with h | h
    · exact absurd h (by simp [hab])
    · exact absurd h (by simp [hba])
  · right; simp [lexC, hab, hba]
  · left; simp [lexC, hab, hba]
  · rcases h2 a b with h | h
    · left; simp [lexC, hab, hba, h]
    · right; simp [lexC, hab, hba, h]

theorem lexC_trans {α : Type _} {le1 le2 : α → α → Bool}
    (ht1 : TransB le1) (ht2 : TransB le2) : TransB (lexC le1 le2) := by
  intro a b c hab hbc
  by_cases eab : le1 a b = true ∧ le1 b a = true
  · by_cases ebc : le1 b c = true ∧ le1 c b = true
    · have hac : le1 a c = true := ht1 a b c eab.1 ebc.1
      have hca : le1 c a = true := ht1 c b a ebc.2 eab.2
      have h2ab : le2 a b = true := by
        simpa [lexC, eab.1, eab.2] using hab
      have h2bc : le2 b c = true := by
        simpa [lexC, ebc.1, ebc.2] using hbc
      simp [lexC, hac, hca, ht2 a b c h2ab h2bc]
    · have hbc' : le1 b c = true := by
        rcases Bool.eq_false_or_eq_true (le1 b c && le1 c b) with hc | hc
        · exact absurd ((Bool.and_eq_true _ _).mp hc)
            (by intro hh; exact ebc ⟨hh.1, hh.2⟩)
        · simpa [lexC, hc] using hbc
      have hac : le1 a c = true := ht1 a b c eab.1 hbc'
      have hnca : ¬ le1 c a = true := by
        intro hca
        exact ebc ⟨hbc', ht1 c a b hca eab.1⟩
      simp [lexC, hac, hnca]
  · have hab' : le1 a b = true := by
      rcases Bool.eq_false_or_eq_true (le1 a b && le1 b a) with hc | hc
      · exact absurd ((Bool.and_eq_true _ _).mp hc)
          (by intro hh; exact eab ⟨hh.1, hh.2⟩)
      · simpa [lexC, hc] using hab
    by_cases ebc : le1 b c = true ∧ le1 c b = true
    · have hac : le1 a c = true := ht1 a b c hab' ebc.1
      have hnca : ¬ le1 c a = true := by
        intro hca
        exact eab ⟨hab', ht1 b c a ebc.1 hca⟩
      simp [lexC, hac, hnca]
    · have hbc' : le1 b c = true := by
        rcases Bool.eq_false_or_eq_true (le1 b c && le1 c b) with hc | hc
        · exact absurd ((Bool.and_eq_true _ _).mp hc)
            (by intro hh; exact ebc ⟨hh.1, hh.2⟩)
        · simpa [lexC, hc] using hbc
      have hac : le1 a c = true := ht1 a b c hab' hbc'
      have hnca : ¬ le1 c a = true := by
        intro hca
        exact ebc ⟨hbc', ht1 c a b hca hab'⟩
      simp [lexC, hac, hnca]

theorem eqvOf_lexC {α : Type _} (le1 le2 : α → α → Bool) (a b : α) :
    eqvOf (lexC le1 le2) a b = (eqvOf le1 a b && eqvOf le2 a b) := by
  cases hab : le1 a b <;> cases hba : le1 b a <;>
    simp [eqvOf, lexC, hab, hba, Bool.and_comm]

theorem lexList_total {α ι : Type _} {rel : ι → α → α → Bool}
    (h1 : ∀ f, TotalB (rel f)) (fs : List ι) : TotalB (lexList rel fs) := by
  induction fs with
  | nil => intro a b; left; rfl
  | cons f rest ih => exact lexC_total (h1 f) ih

theorem lexList_trans {α ι : Type _} {rel : ι → α → α → Bool}
    (h2 : ∀ f, TransB (rel f)) (fs : List ι) : TransB (lexList rel fs) := by
  induction fs with
  | nil => intro a b c _ _; rfl
  | cons f rest ih => exact lexC_trans (h2 f) ih

/-!  ## Multi-pass sorting: permutation, ordering, stability -/

theorem multiPassB_perm {α ι : Type _} (rel : ι → α → α → Bool)
    (fs : List ι) (l : List α) : multiPassB rel fs l ~ l := by
  induction fs with
  | nil => exact List.Perm.refl _
  | cons f rest ih => exact (sortB_perm (rel f) _).trans ih

theorem multiPassB_pairwise {α ι : Type _} [DecidableEq α]
    {rel : ι → α → α → Bool}
    (htot : ∀ f, TotalB (rel f)) (htr : ∀ f, TransB (rel f))
    (fs : List ι) (l : List α) (hnd : l.Nodup) :
    List.Pairwise (fun x y => lexList rel fs x y = true)
      (multiPassB rel fs l) := by
  induction fs with
  | nil =>
    exact List.pairwise_iff_forall_sublist.mpr fun _ => rfl
  | cons f rest ih =>
    have hndm : (multiPassB rel rest l).Nodup :=
      ((multiPassB_perm rel rest l).nodup_iff).mpr hnd
    refine List.pairwise_iff_forall_sublist.mpr ?_
    intro u v hsub
    have h1 : rel f u v = true :=
      List.pairwise_iff_forall_sublist.mp
        (sortB_pairwise (htot f) (htr f) (multiPassB rel rest l)) hsub
    by_cases he : rel f v u = true
    · have hndr : (sortB (rel f) (multiPassB rel rest l)).Nodup :=
        ((sortB_perm (rel f) _).nodup_iff).mpr hndm
      have hne : u ≠ v :=
        List.pairwise_iff_forall_sublist.mp hndr hsub
      have hm : [u, v] <+ multiPassB rel rest l :=
        sortB_stable_rev (rel f) hndm h1 he hsub
      have h2 : lexList rel rest u v = true :=
        List.pairwise_iff_forall_sublist.mp ih hm
      simp [lexList, lexC, h1, he, h2]
    · simp [lexList, lexC, h1, he]

theorem multiPassB_pairsKept {α ι : Type _} (rel : ι → α → α → Bool)
    (fs : List ι) (l : List α) :
    PairsKept (eqvOf (lexList rel fs)) l (multiPassB rel fs l) := by
  induction fs with
  | nil => exact fun x y _ h => h
  | cons f rest ih =>
    intro x y hR hsub
    rw [show lexList rel (f :: rest) = lexC (rel f) (lexList rel rest) from rfl,
      eqvOf_lexC] at hR
    obtain ⟨h1, h2⟩ := (Bool.and_eq_true _ _).mp hR
    have hm : [x, y] <+ multiPassB rel rest l := ih x y h2 hsub
    exact sortB_stable (rel f) ((Bool.and_eq_true _ _).mp h1).1 hm

theorem multiPassE_eq {α ι : Type _} (relO : ι → α → α → Option Bool)
    (relB : ι → α → α → Bool) (fs : List ι) (l : List α)
    (h : ∀ f ∈ fs, ∀ x ∈ l, ∀ y ∈ l, relO f x y = some (relB f x y)) :
    multiPassE relO fs l = some (multiPassB relB fs l) := by
  induction fs with
  | nil => rfl
  | cons f rest ih =>
    simp only [multiPassE, multiPassB]
    rw [ih fun g hg => h g (List.mem_cons_of_mem f hg)]
    simp only [Option.some_bind]
    exact sortE_eq_sortB _ _ fun x hx y hy =>
      h f (List.mem_cons_self f rest) x
        (((multiPassB_perm relB rest l).mem_iff).mp hx) y
        (((multiPassB_perm relB rest l).mem_iff).mp hy)

/-- Sorting with a comparison that always answers `some true` (all keys
equal to the sentinel) returns the list unchanged. -/
theorem sortE_const_true (le : α → α → Option Bool) (l : List α)
    (h : ∀ x ∈ l, ∀ y ∈ l, le x y = some true) : sortE le l = some l := by
  induction l with
  | nil => rfl
  | cons a t ih =>
    simp only [sortE]
    rw [ih fun x hx y hy =>
      h x (List.mem_cons_of_mem a hx) y (List.mem_cons_of_mem a hy)]
    simp only [Option.some_bind]
    cases t with
    | nil => rfl
    | cons b u =>
      simp [insE, h a (List.mem_cons_self a _) b
        (List.mem_cons_of_mem a (List.mem_cons_self b u))]

/-!  ## Characterising `save` -/

theorem save_of_empty_nid (r : InMemoryWorkflowNodeExecutionRepository)
    (e : WorkflowNodeExecution) (h : e.node_execution_id = "") :
    r.save e = r := by
  simp [InMemoryWorkflowNodeExecutionRepository.save, h]

theorem save_executions (r : InMemoryWorkflowNodeExecutionRepository)
    (e : WorkflowNodeExecution) (h : e.node_execution_id ≠ "") :
    (r.save e).executions = alistPut e.node_execution_id e r.executions := by
  unfold InMemoryWorkflowNodeExecutionRepository.save
  rw [if_neg h]
  cases hw : e.workflow_execution_id with
  | none => rfl
  | some wid =>
    by_cases hww : wid = "" <;> simp [hww]

theorem save_index_not_indexed (r : InMemoryWorkflowNodeExecutionRepository)
    (e : WorkflowNodeExecution) (h : e.node_execution_id ≠ "")
    (hw : ¬ ∃ wid, e.workflow_execution_id = some wid ∧ wid ≠ "") :
    (r.save e).workflow_run_index = r.workflow_run_index := by
  unfold InMemoryWorkflowNodeExecutionRepository.save
  rw [if_neg h]
  cases hww : e.workflow_execution_id with
  | none => rfl
  | some wid =>
    have : wid = "" := by
      by_contra hne
      exact hw ⟨wid, hww, hne⟩
    simp [this]

theorem save_index_indexed (r : InMemoryWorkflowNodeExecutionRepository)
    (e : WorkflowNodeExecution) (h : e.node_execution_id ≠ "")
    (hw : e.workflow_execution_id = some wid) (hww : wid ≠ "") :
    (r.save e).workflow_run_index =
      addToBucket (ensureBucket r.workflow_run_index wid) wid
        e.node_execution_id := by
  unfold InMemoryWorkflowNodeExecutionRepository.save
  rw [if_neg h]
  simp [hw, hww]

theorem save_context (r : InMemoryWorkflowNodeExecutionRepository)
    (e : WorkflowNodeExecution) :
    (r.save e).tenant_id = r.tenant_id ∧ (r.save e).app_id = r.app_id := by
  unfold InMemoryWorkflowNodeExecutionRepository.save
  by_cases h : e.node_execution_id = ""
  · simp [h]
  · rw [if_neg h]
    cases hw : e.workflow_execution_id with
    | none => exact ⟨rfl, rfl⟩
    | some wid => by_cases hww : wid = "" <;> simp [hww]

/-!  ## Characterising the index updates -/

theorem alistGet_ensure_self (idx : List (String × List String)) (wid : String) :
    alistGet wid (ensureBucket idx wid) = some ((alistGet wid idx).getD []) := by
  unfold ensureBucket
  cases h : alistGet wid idx with
  | none => simp [h, alistGet_put_self]
  | some b => simp [h]

theorem alistGet_ensure_ne (h : k ≠ wid) (idx : List (String × List String)) :
    alistGet k (ensureBucket idx wid) = alistGet k idx := by
  unfold ensureBucket
  cases hw : alistGet wid idx with
  | none => simp [alistGet_put_ne h]
  | some b => rfl

theorem alistGet_add_self (idx : List (String × List String)) (wid nid : String) :
    alistGet wid (addToBucket idx wid nid) =
      some (if nid ∈ (alistGet wid idx).getD []
            then (alistGet wid idx).getD []
            else (alistGet wid idx).getD [] ++ [nid]) := by
  unfold addToBucket
  by_cases hm : nid ∈ (alistGet wid idx).getD []
  · cases h : alistGet wid idx with
    | none => rw [h] at hm; simp at hm
    | some b =>
      have hmb : nid ∈ b := by rw [h] at hm; simpa using hm
      simp [h, hmb]
  · simp [hm, alistGet_put_self]

theorem alistGet_add_ne (h : k ≠ wid) (idx : List (String × List String))
    (nid : String) :
    alistGet k (addToBucket idx wid nid) = alistGet k idx := by
  unfold addToBucket
  by_cases hm : nid ∈ (alistGet wid idx).getD []
  · simp [hm]
  · simp [hm, alistGet_put_ne h]

/-- The bucket of the indexed key right after an indexed `save`. -/
theorem save_bucket_self (r : InMemoryWorkflowNodeExecutionRepository)
    (e : WorkflowNodeExecution) (h : e.node_execution_id ≠ "")
    (hw : e.workflow_execution_id = some wid) (hww : wid ≠ "") :
    alistGet wid (r.save e).workflow_run_index =
      some (if e.node_execution_id ∈ (alistGet wid r.workflow_run_index).getD []
            then (alistGet wid r.workflow_run_index).getD []
            else (alistGet wid r.workflow_run_index).getD []
              ++ [e.node_execution_id]) := by
  rw [save_index_indexed r e h hw hww, alistGet_add_self,
    alistGet_ensure_self]
  rfl

theorem save_bucket_ne (r : InMemoryWorkflowNodeExecutionRepository)
    (e : WorkflowNodeExecution) (h : e.node_execution_id ≠ "")
    (hw : e.workflow_execution_id = some wid) (hww : wid ≠ "") (hk : k ≠ wid) :
    alistGet k (r.save e).workflow_run_index =
      alistGet k r.workflow_run_index := by
  rw [save_index_indexed r e h hw hww, alistGet_add_ne hk,
    alistGet_ensure_ne hk]

/-!  ## The store invariant -/

theorem stored_after_put (execs : List (String × WorkflowNodeExecution))
    (hx : alistGet nid execs = some x) (n2 : String) (e : WorkflowNodeExecution) :
    ∃ y, alistGet nid (alistPut n2 e execs) = some y := by
  by_cases h : nid = n2
  · subst h
    exact ⟨e, alistGet_put_self _ _ _⟩
  · exact ⟨x, (alistGet_put_ne h _ _).trans hx⟩

theorem repoInv_save (r : InMemoryWorkflowNodeExecutionRepository)
    (hInv : RepoInv r) (e : WorkflowNodeExecution) : RepoInv (r.save e) := by
  obtain ⟨hS, hN, hC, hB⟩ := hInv
  by_cases hnid : e.node_execution_id = ""
  · rw [save_of_empty_nid r e hnid]
    exact ⟨hS, hN, hC, hB⟩
  have hex := save_executions r e hnid
  have hStored : StoredOK (r.save e) := by
    intro nid x hget
    rw [hex] at hget
    by_cases hn : nid = e.node_execution_id
    · subst hn
      rw [alistGet_put_self] at hget
      cases hget
      rfl
    · rw [alistGet_put_ne hn] at hget
      exact hS nid x hget
  have hKeep : ∀ nid x, alistGet nid r.executions = some x →
      ∃ y, alistGet nid (r.save e).executions = some y := by
    intro nid x hx
    rw [hex]
    exact stored_after_put r.executions hx _ e
  by_cases hw : ∃ wid, e.workflow_execution_id = some wid ∧ wid ≠ ""
  · obtain ⟨wid, hw1, hw2⟩ := hw
    have hb0 : ((alistGet wid r.workflow_run_index).getD []).Nodup := by
      cases hh : alistGet wid r.workflow_run_index with
      | none => simp
      | some b => simpa using hN wid b hh
    refine ⟨hStored, ?_, ?_, ?_⟩
    · -- buckets stay duplicate free
      intro k b hget
      by_cases hk : k = wid
      · subst hk
        rw [save_bucket_self r e hnid hw1 hw2] at hget
        cases hget
        by_cases hm : e.node_execution_id ∈ (alistGet k r.workflow_run_index).getD []
        · simpa [hm] using hb0
        · rw [if_neg hm, List.nodup_append]
          exact ⟨hb0, List.nodup_singleton _, by simpa using hm⟩
      · rw [save_bucket_ne r e hnid hw1 hw2 hk] at hget
        exact hN k b hget
    · -- completeness
      intro nid x w2 hget hwf hwne
      rw [hex] at hget
      by_cases hn : nid = e.node_execution_id
      · subst hn
        rw [alistGet_put_self] at hget
        cases hget
        rw [hw1] at hwf
        cases hwf
        refine ⟨_, save_bucket_self r e hnid hw1 hw2, ?_⟩
        by_cases hm : e.node_execution_id ∈ (alistGet wid r.workflow_run_index).getD []
        · simp [hm]
        · simp [hm]
      · rw [alistGet_put_ne hn] at hget
        obtain ⟨b, hb, hmem⟩ := hC nid x w2 hget hwf hwne
        by_cases hk : w2 = wid
        · subst hk
          refine ⟨_, save_bucket_self r e hnid hw1 hw2, ?_⟩
          rw [hb]
          simp only [Option.getD_some]
          by_cases hm2 : e.node_execution_id ∈ b
          · rw [if_pos hm2]
            exact hmem
          · rw [if_neg hm2]
            exact List.mem_append_left _ hmem
        · exact ⟨b, (save_bucket_ne r e hnid hw1 hw2 hk).trans hb, hmem⟩
    · -- bucket entries reference stored records
      intro k b hget nid hnidb
      by_cases hk : k = wid
      · subst hk
        rw [save_bucket_self r e hnid hw1 hw2] at hget
        cases hget
        have hcases : nid ∈ (alistGet k r.workflow_run_index).getD []
            ∨ nid = e.node_execution_id := by
          by_cases hm : e.node_execution_id ∈ (alistGet k r.workflow_run_index).getD []
          · rw [if_pos hm] at hnidb
            exact Or.inl hnidb
          · rw [if_neg hm] at hnidb
            rcases List.mem_append.mp hnidb with hh | hh
            · exact Or.inl hh
            · exact Or.inr (by simpa using hh)
        rcases hcases with hm | hm
        · cases hh : alistGet k r.workflow_run_index with
          | none => rw [hh] at hm; simp at hm
          | some bb =>
            rw [hh] at hm
            obtain ⟨x, hx⟩ := hB k bb hh nid (by simpa using hm)
            exact hKeep nid x hx
        · subst hm
          rw [hex]
          exact ⟨e, alistGet_put_self _ _ _⟩
      · rw [save_bucket_ne r e hnid hw1 hw2 hk] at hget
        obtain ⟨x, hx⟩ := hB k b hget nid hnidb
        exact hKeep nid x hx
  · have hidx := save_index_not_indexed r e hnid hw
    refine ⟨hStored, ?_, ?_, ?_⟩
    · intro k b hget
      rw [hidx] at hget
      exact hN k b hget
    · intro nid x w2 hget hwf hwne
      rw [hex] at hget
      by_cases hn : nid = e.node_execution_id
      · subst hn
        rw [alistGet_put_self] at hget
        cases hget
        exact absurd ⟨w2, hwf, hwne⟩ hw
      · rw [alistGet_put_ne hn] at hget
        obtain ⟨b, hb, hmem⟩ := hC nid x w2 hget hwf hwne
        exact ⟨b, hidx ▸ hb, hmem⟩
    · intro k b hget nid hnidb
      rw [hidx] at hget
      obtain ⟨x, hx⟩ := hB k b hget nid hnidb
      exact hKeep nid x hx

theorem repoInv_fresh : RepoInv freshNodeRepo := by
  refine ⟨?_, ?_, ?_, ?_⟩
  · intro nid e h
    simp [freshNodeRepo, alistGet] at h
  · intro k b h
    simp [freshNodeRepo, alistGet] at h
  · intro nid e wid h
    simp [freshNodeRepo, alistGet] at h
  · intro k b h
    simp [freshNodeRepo, alistGet] at h

theorem repoInv_foldl (es : List WorkflowNodeExecution)
    (r : InMemoryWorkflowNodeExecutionRepository) (h : RepoInv r) :
    RepoInv (es.foldl InMemoryWorkflowNodeExecutionRepository.save r) := by
  induction es generalizing r with
  | nil => exact h
  | cons e t ih => exact ih _ (repoInv_save r h e)

theorem repoInv_runSaves (es : List WorkflowNodeExecution) :
    RepoInv (runSaves es) :=
  repoInv_foldl es freshNodeRepo repoInv_fresh

/-!  ## Characterising the unsorted query result -/

theorem get_by_workflow_run_none (r : InMemoryWorkflowNodeExecutionRepository)
    (k : String) : r.get_by_workflow_run k none = some (baseRecords r k) :=
  rfl

theorem baseRecords_of_no_bucket (r : InMemoryWorkflowNodeExecutionRepository)
    (h : alistGet k r.workflow_run_index = none) : baseRecords r k = [] := by
  simp [baseRecords, h]

theorem mem_baseRecords (r : InMemoryWorkflowNodeExecutionRepository)
    (hS : StoredOK r) (hC : IndexComplete r) (hk : k ≠ "")
    (x : WorkflowNodeExecution) :
    x ∈ baseRecords r k ↔
      alistGet x.node_execution_id r.executions = some x ∧
        x.workflow_execution_id = some k := by
  unfold baseRecords
  rw [List.mem_filterMap]
  constructor
  · rintro ⟨nid, _, hf⟩
    cases hget : alistGet nid r.executions with
    | none => rw [hget] at hf; simp at hf
    | some y =>
      rw [hget] at hf
      by_cases hcond : y.workflow_execution_id = some k
      · have hyx : y = x := by
          simpa [InMemoryWorkflowNodeExecutionRepository.matchesConstraints,
            hcond] using hf
        subst hyx
        have hnid : y.node_execution_id = nid := hS nid y hget
        rw [hnid]
        exact ⟨hget, hcond⟩
      · simp [InMemoryWorkflowNodeExecutionRepository.matchesConstraints,
          hcond] at hf
  · rintro ⟨hget, hwf⟩
    obtain ⟨b, hb, hm⟩ := hC _ _ _ hget hwf hk
    refine ⟨x.node_execution_id, by simpa [hb] using hm, ?_⟩
    simp [hget, InMemoryWorkflowNodeExecutionRepository.matchesConstraints, hwf]

theorem nodup_baseRecords (r : InMemoryWorkflowNodeExecutionRepository)
    (hS : StoredOK r) (hN : BucketsNodup r) (k : String) :
    (baseRecords r k).Nodup := by
  unfold baseRecords
  have hbnd : ((alistGet k r.workflow_run_index).getD []).Nodup := by
    cases h : alistGet k r.workflow_run_index with
    | none => simp
    | some b => simpa using hN k b h
  refine List.Nodup.filterMap ?_ hbnd
  intro a a2 x hx hx2
  have key : ∀ n : String,
      x ∈ (match alistGet n r.executions with
        | some e =>
          if r.matchesConstraints e && decide (e.workflow_execution_id = some k)
          then some e else none
        | none => none) → x.node_execution_id = n := by
    intro n hmem
    cases hget : alistGet n r.executions with
    | none => rw [hget] at hmem; simp at hmem
    | some y =>
      rw [hget] at hmem
      by_cases hcond : y.workflow_execution_id = some k
      · have hyx : y = x := by
          simpa [InMemoryWorkflowNodeExecutionRepository.matchesConstraints,
            hcond] using hmem
        subst hyx
        exact hS n y hget
      · simp [InMemoryWorkflowNodeExecutionRepository.matchesConstraints,
          hcond] at hmem
  exact (key a hx).symm.trans (key a2 hx2)

theorem multiPassE_nil {α ι : Type _} (rel : ι → α → α → Option Bool)
    (fs : List ι) : multiPassE rel fs ([] : List α) = some [] := by
  induction fs with
  | nil => rfl
  | cons f rest ih => simp [multiPassE, ih, sortE]

/-!  # The claims -/

/-- C1: for every record with a non-empty identity (`id_` for workflow
executions, `node_execution_id` for node executions), `save(record)`
followed by the point lookup (`get`, respectively
`get_by_node_execution_id`) with that identity returns the saved record
itself. -/
theorem C1_save_then_point_lookup :
    (∀ (r : InMemoryWorkflowExecutionRepository) (e : WorkflowExecution),
      e.id_ ≠ "" → (r.save e).get e.id_ = some e) ∧
    (∀ (r : InMemoryWorkflowNodeExecutionRepository) (e : WorkflowNodeExecution),
      e.node_execution_id ≠ "" →
        (r.save e).get_by_node_execution_id e.node_execution_id = some e) := by
  constructor
  · intro r e h
    simp [InMemoryWorkflowExecutionRepository.save,
      InMemoryWorkflowExecutionRepository.get, h, alistGet_put_self,
      InMemoryWorkflowExecutionRepository.matchesConstraints]
  · intro r e h
    unfold InMemoryWorkflowNodeExecutionRepository.get_by_node_execution_id
    rw [save_executions r e h, alistGet_put_self]
    simp [InMemoryWorkflowNodeExecutionRepository.matchesConstraints]

theorem C1_save_then_point_lookup_witness :
    (freshExecRepo.save sampleWfExec).get sampleWfExec.id_ = some sampleWfExec ∧
    (freshNodeRepo.save scenE1).get_by_node_execution_id
      scenE1.node_execution_id = some scenE1 :=
  ⟨C1_save_then_point_lookup.1 freshExecRepo sampleWfExec (by decide),
   C1_save_then_point_lookup.2 freshNodeRepo scenE1 (by decide)⟩

/-- C7: saving a record whose identity is empty is a complete no-op on
observable state for both stores: no error, and the whole repository
state (primary map, and for the node store the secondary index) is
unchanged — in particular the store size never grows. -/
theorem C7_empty_identity_save_noop :
    (∀ (r : InMemoryWorkflowExecutionRepository) (e : WorkflowExecution),
      e.id_ = "" → r.save e = r) ∧
    (∀ (r : InMemoryWorkflowNodeExecutionRepository) (e : WorkflowNodeExecution),
      e.node_execution_id = "" → r.save e = r) := by
  constructor
  · intro r e h
    simp [InMemoryWorkflowExecutionRepository.save, h]
  · intro r e h
    exact save_of_empty_nid r e h

theorem C7_empty_identity_save_noop_witness :
    freshExecRepo.save noIdWfExec = freshExecRepo ∧
    freshNodeRepo.save noIdNodeExec = freshNodeRepo :=
  ⟨C7_empty_identity_save_noop.1 freshExecRepo noIdWfExec (by decide),
   C7_empty_identity_save_noop.2 freshNodeRepo noIdNodeExec (by decide)⟩

/-- C9: after `clear()` both the primary map and the secondary index are
empty, every `get_by_workflow_run` query (with or without ordering)
returns the empty sequence, and every point lookup is absent. -/
theorem C9_clear_empties_everything :
    ∀ r : InMemoryWorkflowNodeExecutionRepository,
      r.clear.executions = [] ∧ r.clear.workflow_run_index = [] ∧
      (∀ k oc, r.clear.get_by_workflow_run k oc = some []) ∧
      (∀ nid, r.clear.get_by_node_execution_id nid = none) := by
  intro r
  have hbase : ∀ k, baseRecords r.clear k = [] := by
    intro k
    simp [baseRecords, InMemoryWorkflowNodeExecutionRepository.clear, alistGet]
  refine ⟨rfl, rfl, ?_, ?_⟩
  · intro k oc
    cases oc with
    | none => simp [InMemoryWorkflowNodeExecutionRepository.get_by_workflow_run, hbase]
    | some cfg =>
      by_cases ho : cfg.order_by = []
      · simp [InMemoryWorkflowNodeExecutionRepository.get_by_workflow_run, ho, hbase]
      · simp [InMemoryWorkflowNodeExecutionRepository.get_by_workflow_run, ho,
          hbase, multiPassE_nil]
  · intro nid
    simp [InMemoryWorkflowNodeExecutionRepository.get_by_node_execution_id,
      InMemoryWorkflowNodeExecutionRepository.clear, alistGet]

theorem C9_clear_empties_everything_witness :
    (runSaves [scenE3, scenE1, scenE2]).clear.get_by_workflow_run runKey
      (some cfgIndexAsc) = some [] ∧
    (runSaves [scenE3, scenE1, scenE2]).clear.get_by_node_execution_id
      scenE1.node_execution_id = none :=
  ⟨(C9_clear_empties_everything (runSaves [scenE3, scenE1, scenE2])).2.2.1
      runKey (some cfgIndexAsc),
   (C9_clear_empties_everything (runSaves [scenE3, scenE1, scenE2])).2.2.2
      scenE1.node_execution_id⟩

/-- C2: from a fresh store, after any sequence of `save` calls and for
every non-empty key `k`, `get_by_workflow_run k` (without order config)
returns exactly the currently-stored records whose
`workflow_execution_id` equals `k` — without duplicates, even when the
same `node_execution_id` was saved several times — and returns the empty
sequence when no index bucket exists for `k`. -/
theorem C2_get_by_workflow_run_exact (es : List WorkflowNodeExecution)
    (k : String) (hk : k ≠ "") :
    ∃ l, (runSaves es).get_by_workflow_run k none = some l ∧ l.Nodup ∧
      (∀ x, x ∈ l ↔
        alistGet x.node_execution_id (runSaves es).executions = some x ∧
          x.workflow_execution_id = some k) ∧
      (alistGet k (runSaves es).workflow_run_index = none → l = []) := by
  obtain ⟨hS, hN, hC, _⟩ := repoInv_runSaves es
  exact ⟨baseRecords (runSaves es) k, rfl,
    nodup_baseRecords (runSaves es) hS hN k,
    fun x => mem_baseRecords (runSaves es) hS hC hk x,
    fun h => baseRecords_of_no_bucket (runSaves es) h⟩

theorem C2_get_by_workflow_run_exact_witness :
    ∃ l, (runSaves [scenE3, scenE1, scenE1, scenE2]).get_by_workflow_run
        runKey none = some l ∧ l.Nodup ∧
      (∀ x, x ∈ l ↔
        alistGet x.node_execution_id
            (runSaves [scenE3, scenE1, scenE1, scenE2]).executions = some x ∧
          x.workflow_execution_id = some runKey) ∧
      (alistGet runKey
          (runSaves [scenE3, scenE1, scenE1, scenE2]).workflow_run_index =
            none → l = []) :=
  C2_get_by_workflow_run_exact [scenE3, scenE1, scenE1, scenE2] runKey
    (by decide)

/-- C3 counterexample: saving `staleV1` under run `"run-a"` and then the
same `node_execution_id` as `staleV2` under run `"run-b"` leaves the id
in the bucket of `"run-a"` although no currently-stored record has
`workflow_execution_id = "run-a"` — a stale index entry, so the index is
not exact as the claim states. -/
theorem C3_stale_entry_counterexample :
    alistGet runKeyA (runSaves [staleV1, staleV2]).workflow_run_index =
      some [staleV2.node_execution_id] ∧
    (∀ p ∈ (runSaves [staleV1, staleV2]).executions,
      ¬ p.2.workflow_execution_id = some runKeyA) := by decide

/-- C3 (amended): in every state reachable by saves from a fresh store,
the secondary index is duplicate free, complete (every stored record
with a non-empty `workflow_execution_id` `k` appears in bucket `k` —
so an idempotent re-save never duplicates an entry), and every bucket
entry references some stored record; but after a re-save that changes a
record's `workflow_execution_id` the old bucket may retain a stale
entry, which `get_by_workflow_run` filters out at read time. -/
theorem C3_index_invariant_amended (es : List WorkflowNodeExecution) :
    BucketsNodup (runSaves es) ∧ IndexComplete (runSaves es) ∧
      BucketsStored (runSaves es) :=
  ⟨(repoInv_runSaves es).2.1, (repoInv_runSaves es).2.2.1,
    (repoInv_runSaves es).2.2.2⟩

theorem C3_index_invariant_amended_witness :
    ∃ b, alistGet runKey (runSaves [scenE1]).workflow_run_index = some b ∧
      scenE1.node_execution_id ∈ b :=
  (C3_index_invariant_amended [scenE1]).2.1 scenE1.node_execution_id scenE1
    runKey (by decide) (by decide) (by decide)

/-- C8: `get_running_executions k` returns exactly the records of
`get_by_workflow_run k` (queried without ordering) whose status is
RUNNING and no record with any other status; over reachable states these
are exactly the stored records of run `k` in status RUNNING. -/
theorem C8_running_filter (es : List WorkflowNodeExecution) (k : String)
    (hk : k ≠ "") :
    ∃ base l, (runSaves es).get_by_workflow_run k none = some base ∧
      (runSaves es).get_running_executions k = some l ∧
      (∀ x, x ∈ l ↔ x ∈ base ∧
        x.status = WorkflowNodeExecutionStatus.running) ∧
      (∀ x, x ∈ l ↔
        alistGet x.node_execution_id (runSaves es).executions = some x ∧
          x.workflow_execution_id = some k ∧
          x.status = WorkflowNodeExecutionStatus.running) := by
  obtain ⟨hS, hN, hC, _⟩ := repoInv_runSaves es
  refine ⟨baseRecords (runSaves es) k,
    (baseRecords (runSaves es) k).filter
      (fun e => decide (e.status = WorkflowNodeExecutionStatus.running)),
    rfl, rfl, ?_, ?_⟩
  · intro x
    simp [List.mem_filter]
  · intro x
    simp [List.mem_filter, mem_baseRecords (runSaves es) hS hC hk x, and_assoc]

theorem C8_running_filter_witness :
    ∃ base l, (runSaves [scenE1, finSome]).get_by_workflow_run runKey none =
        some base ∧
      (runSaves [scenE1, finSome]).get_running_executions runKey = some l ∧
      (∀ x, x ∈ l ↔ x ∈ base ∧
        x.status = WorkflowNodeExecutionStatus.running) ∧
      (∀ x, x ∈ l ↔
        alistGet x.node_execution_id (runSaves [scenE1, finSome]).executions =
            some x ∧
          x.workflow_execution_id = some runKey ∧
          x.status = WorkflowNodeExecutionStatus.running) :=
  C8_running_filter [scenE1, finSome] runKey (by decide)

/-- C10 counterexample: two repository instances are constructed
independently; a record is saved through the second and `clear()` is
called on the first.  The second instance still holds and returns the
record — `clear` does not touch state of other instances, because
`__init__` creates the two dictionaries per instance. -/
theorem C10_clear_other_instance_counterexample :
    ((clearFirst (saveSecond (freshNodeRepo, freshNodeRepoB) scenE1)).2.get_by_node_execution_id
        scenE1.node_execution_id = some scenE1) ∧
    ¬ (clearFirst (saveSecond (freshNodeRepo, freshNodeRepoB) scenE1)).2.executions = [] := by
  decide

/-- C10 (amended): `clear()` empties the calling instance's entire
primary map and secondary index — it is not filtered to the tenant/app
scope captured at construction — but storage is per instance, so
clearing one instance leaves any other instance completely unchanged. -/
theorem C10_clear_scope_amended :
    ∀ w : InMemoryWorkflowNodeExecutionRepository ×
        InMemoryWorkflowNodeExecutionRepository,
      (clearFirst w).1.executions = [] ∧
      (clearFirst w).1.workflow_run_index = [] ∧
      (clearFirst w).1.tenant_id = w.1.tenant_id ∧
      (clearFirst w).2 = w.2 :=
  fun _ => ⟨rfl, rfl, rfl, rfl⟩

theorem C10_clear_scope_amended_witness :
    (clearFirst (saveSecond (freshNodeRepo, freshNodeRepoB) scenE1)).1.executions = [] ∧
    (clearFirst (saveSecond (freshNodeRepo, freshNodeRepoB) scenE1)).1.workflow_run_index = [] ∧
    (clearFirst (saveSecond (freshNodeRepo, freshNodeRepoB) scenE1)).1.tenant_id =
      (saveSecond (freshNodeRepo, freshNodeRepoB) scenE1).1.tenant_id ∧
    (clearFirst (saveSecond (freshNodeRepo, freshNodeRepoB) scenE1)).2 =
      (saveSecond (freshNodeRepo, freshNodeRepoB) scenE1).2 :=
  C10_clear_scope_amended (saveSecond (freshNodeRepo, freshNodeRepoB) scenE1)

/-!  ## Per-field comparisons -/

theorem fieldLeB_total (desc : Bool) (f : String) : TotalB (fieldLeB desc f) := by
  intro a b
  by_cases hd : desc
  · simp only [fieldLeB, hd, if_true]
    exact pvLeB_total (sortKey b f) (sortKey a f)
  · simp only [fieldLeB, hd, if_false]
    exact pvLeB_total (sortKey a f) (sortKey b f)

theorem fieldLeB_trans (desc : Bool) (f : String) : TransB (fieldLeB desc f) := by
  intro a b c h1 h2
  by_cases hd : desc
  · simp only [fieldLeB, hd, if_true] at h1 h2 ⊢
    exact pvLeB_trans _ _ _ h2 h1
  · simp only [fieldLeB, hd, if_false] at h1 h2 ⊢
    exact pvLeB_trans _ _ _ h1 h2

theorem fieldLeO_eq_some (desc : Bool) (f : String)
    (x y : WorkflowNodeExecution)
    (h : (sortKey x f).tag = (sortKey y f).tag) :
    fieldLeO desc f x y = some (fieldLeB desc f x y) := by
  by_cases hd : desc
  · simp only [fieldLeO, fieldLeB, hd, if_true]
    exact pyLe_eq_some h.symm
  · simp only [fieldLeO, fieldLeB, hd, if_false]
    exact pyLe_eq_some h

/-!  ## `get_by_workflow_run` with an order config -/

theorem gbwr_sorted (r : InMemoryWorkflowNodeExecutionRepository)
    (k : String) (cfg : OrderConfig) (h : ¬ cfg.order_by = []) :
    r.get_by_workflow_run k (some cfg) =
      multiPassE (fieldLeO (cfg.order_direction == "desc")) cfg.order_by
        (baseRecords r k) := by
  simp [InMemoryWorkflowNodeExecutionRepository.get_by_workflow_run, h]

theorem gbwr_sorted_eq (r : InMemoryWorkflowNodeExecutionRepository)
    (k : String) (cfg : OrderConfig) (h : ¬ cfg.order_by = [])
    (htags : ∀ f ∈ cfg.order_by, ∀ x ∈ baseRecords r k,
      ∀ y ∈ baseRecords r k, (sortKey x f).tag = (sortKey y f).tag) :
    r.get_by_workflow_run k (some cfg) =
      some (multiPassB (fieldLeB (cfg.order_direction == "desc"))
        cfg.order_by (baseRecords r k)) := by
  rw [gbwr_sorted r k cfg h]
  exact multiPassE_eq _ _ _ _ fun f hf x hx y hy =>
    fieldLeO_eq_some _ f x y (htags f hf x hx y hy)

/-!  ## Keys of particular fields -/

theorem pyAttr_index (x : WorkflowNodeExecution) :
    pyAttr x fieldIndex = .vInt x.index := rfl

theorem sortKey_index (x : WorkflowNodeExecution) (h : x.index ≠ 0) :
    sortKey x fieldIndex = .vInt x.index := by
  unfold sortKey
  rw [pyAttr_index]
  simp [PyVal.truthy, h]

theorem sortKey_bogus (x : WorkflowNodeExecution) :
    sortKey x fieldBogus = sentinel := rfl

theorem sortKey_finished_none (x : WorkflowNodeExecution)
    (h : x.finished_at = none) : sortKey x fieldFinishedAt = sentinel := by
  unfold sortKey
  have hp : pyAttr x fieldFinishedAt =
      (match x.finished_at with
        | some t => PyVal.vInt t
        | none => sentinel) := rfl
  rw [hp, h]
  rfl

/-- One sort pass where every key is the sentinel returns the list
unchanged (this is what ordering by a non-existent field degenerates
to). -/
theorem gbwr_sentinel_field (r : InMemoryWorkflowNodeExecutionRepository)
    (k f dir : String) (hf : ∀ x : WorkflowNodeExecution, sortKey x f = sentinel) :
    r.get_by_workflow_run k
      (some { order_by := [f], order_direction := dir }) =
      some (baseRecords r k) := by
  rw [gbwr_sorted r k _ (by simp)]
  simp only [multiPassE, Option.some_bind]
  apply sortE_const_true
  intro x _ y _
  unfold fieldLeO
  split <;> rw [hf x, hf y] <;> rfl

/-- C6 counterexample: ordering by `finished_at` over one record whose
`finished_at` is `None` (key coerced to the empty-string sentinel) and
one finished record (key a non-string timestamp) raises a cross-type
`TypeError` — `get_by_workflow_run` does not return. -/
theorem C6_sort_raises_counterexample :
    (runSaves [finNone, finSome]).get_by_workflow_run runKey
      (some cfgFinished) = none := by decide

/-- C6 (amended): ordering by a field name that does not exist on the
record type never raises — every key is the empty-string sentinel and
the result is the unsorted bucket result itself, in particular of
unchanged size; a `None`-valued field is likewise coerced to the
sentinel, so `None` itself is never compared; and whenever all keys of
each requested field have one type over the queried records, sorting
returns a result of unchanged size.  (The claim's "never raises" is
false in general: a coerced sentinel can still meet a non-string key of
another record, see the counterexample.) -/
theorem C6_sort_key_safety_amended :
    (∀ (r : InMemoryWorkflowNodeExecutionRepository) (k f dir : String),
      (∀ x : WorkflowNodeExecution, sortKey x f = sentinel) →
      r.get_by_workflow_run k
          (some { order_by := [f], order_direction := dir }) =
        some (baseRecords r k)) ∧
    (∀ x : WorkflowNodeExecution, x.finished_at = none →
      sortKey x fieldFinishedAt = sentinel) ∧
    (∀ (r : InMemoryWorkflowNodeExecutionRepository) (k : String)
        (cfg : OrderConfig), ¬ cfg.order_by = [] →
      (∀ f ∈ cfg.order_by, ∀ x ∈ baseRecords r k, ∀ y ∈ baseRecords r k,
        (sortKey x f).tag = (sortKey y f).tag) →
      ∃ res, r.get_by_workflow_run k (some cfg) = some res ∧
        res.length = (baseRecords r k).length) :=
  ⟨fun r k f dir hf => gbwr_sentinel_field r k f dir hf,
   fun x h => sortKey_finished_none x h,
   fun r k cfg h htags =>
     ⟨_, gbwr_sorted_eq r k cfg h htags,
       (multiPassB_perm _ cfg.order_by _).length_eq⟩⟩

theorem C6_sort_key_safety_amended_witness :
    (runSaves [scenE1, finSome]).get_by_workflow_run runKey
        (some { order_by := [fieldBogus], order_direction := dirAsc }) =
      some (baseRecords (runSaves [scenE1, finSome]) runKey) ∧
    sortKey finNone fieldFinishedAt = sentinel ∧
    ∃ res, (runSaves [scenE1, finSome]).get_by_workflow_run runKey
        (some cfgIndexAsc) = some res ∧
      res.length = (baseRecords (runSaves [scenE1, finSome]) runKey).length :=
  ⟨C6_sort_key_safety_amended.1 (runSaves [scenE1, finSome]) runKey fieldBogus
      dirAsc (fun x => sortKey_bogus x),
   C6_sort_key_safety_amended.2.1 finNone rfl,
   C6_sort_key_safety_amended.2.2 (runSaves [scenE1, finSome]) runKey
      cfgIndexAsc (by decide) (by decide)⟩

/-- C5: with several field names, `get_by_workflow_run` performs a
stable multi-key sort whose most significant key is the first listed
field and whose later fields break ties: over any reachable store the
result is a permutation of the unsorted bucket result, it is ordered by
the lexicographic combination of the per-field comparisons, and every
pair of records equivalent under all requested fields keeps its original
relative order (stability); concretely, the unit test's scenario with
`order_by=["node_type","index"]` groups by `node_type` first and orders
by `index` within groups.  (Keys of each field are assumed
type-uniform over the queried records; mixed-type keys raise instead,
settled under C6.) -/
theorem C5_multi_key_stable_sort :
    (∀ (es : List WorkflowNodeExecution) (k : String) (cfg : OrderConfig),
      ¬ cfg.order_by = [] →
      (∀ f ∈ cfg.order_by, ∀ x ∈ baseRecords (runSaves es) k,
        ∀ y ∈ baseRecords (runSaves es) k,
        (sortKey x f).tag = (sortKey y f).tag) →
      ∃ res, (runSaves es).get_by_workflow_run k (some cfg) = some res ∧
        List.Perm res (baseRecords (runSaves es) k) ∧
        List.Pairwise (fun x y =>
          lexList (fieldLeB (cfg.order_direction == "desc")) cfg.order_by x y
            = true) res ∧
        PairsKept
          (eqvOf (lexList (fieldLeB (cfg.order_direction == "desc"))
            cfg.order_by))
          (baseRecords (runSaves es) k) res) ∧
    (runSaves [mkLlm, mkStart, mkKnow]).get_by_workflow_run runKey
      (some cfgTypeIndex) = some [mkKnow, mkLlm, mkStart] := by
  constructor
  · intro es k cfg h htags
    obtain ⟨hS, hN, _, _⟩ := repoInv_runSaves es
    have hnd := nodup_baseRecords (runSaves es) hS hN k
    refine ⟨_, gbwr_sorted_eq _ k cfg h htags, multiPassB_perm _ _ _, ?_, ?_⟩
    · exact multiPassB_pairwise (fun f => fieldLeB_total _ f)
        (fun f => fieldLeB_trans _ f) cfg.order_by _ hnd
    · exact multiPassB_pairsKept _ cfg.order_by _
  · decide

theorem C5_multi_key_stable_sort_witness :
    ∃ res, (runSaves [mkLlm, mkStart, mkKnow]).get_by_workflow_run runKey
        (some cfgTypeIndex) = some res ∧
      List.Perm res (baseRecords (runSaves [mkLlm, mkStart, mkKnow]) runKey) ∧
      List.Pairwise (fun x y =>
        lexList (fieldLeB (cfgTypeIndex.order_direction == "desc"))
          cfgTypeIndex.order_by x y = true) res ∧
      PairsKept
        (eqvOf (lexList (fieldLeB (cfgTypeIndex.order_direction == "desc"))
          cfgTypeIndex.order_by))
        (baseRecords (runSaves [mkLlm, mkStart, mkKnow]) runKey) res :=
  C5_multi_key_stable_sort.1 [mkLlm, mkStart, mkKnow] runKey cfgTypeIndex
    (by decide) (by decide)

/-- C4 counterexample: with two records of equal `index` under one run,
the descending query returns the records in their insertion order
(CPython's sort is stable also with `reverse=True`), which is *not* the
reverse of the ascending result. -/
theorem C4_desc_not_reverse_counterexample :
    (runSaves [tieA, tieB]).get_by_workflow_run runKey (some cfgIndexDesc) ≠
      Option.map List.reverse
        ((runSaves [tieA, tieB]).get_by_workflow_run runKey
          (some cfgIndexAsc)) := by
  decide

/-- C4 (amended): for every populated run whose matching records all
have a non-zero `index` (a zero index is coerced to the empty-string
sentinel by `or ""` and sorting would raise), ordering by `index`
ascending returns the matching records stably sorted by ascending
`index`, descending returns them stably sorted by descending `index`,
and the descending result is the reverse of the ascending one whenever
the `index` values are pairwise distinct (with ties, stability keeps
insertion order in both directions, see the counterexample); the
concrete scenario — indexes 3, 1, 2 saved under one run id — is
returned ascending as 1, 2, 3. -/
theorem C4_order_by_index :
    (∀ (r : InMemoryWorkflowNodeExecutionRepository) (k : String),
      (∀ x ∈ baseRecords r k, x.index ≠ 0) →
      ∃ resA resD,
        r.get_by_workflow_run k (some cfgIndexAsc) = some resA ∧
        List.Perm resA (baseRecords r k) ∧
        List.Pairwise (fun x y => x.index ≤ y.index) resA ∧
        r.get_by_workflow_run k (some cfgIndexDesc) = some resD ∧
        List.Perm resD (baseRecords r k) ∧
        List.Pairwise (fun x y => y.index ≤ x.index) resD ∧
        (List.Pairwise (fun x y => x.index ≠ y.index) (baseRecords r k) →
          resD = resA.reverse)) ∧
    (runSaves [scenE3, scenE1, scenE2]).get_by_workflow_run runKey
      (some cfgIndexAsc) = some [scenE1, scenE2, scenE3] := by
  constructor
  · intro r k hnz
    have htags : ∀ g : Bool, ∀ f ∈ [fieldIndex], ∀ x ∈ baseRecords r k,
        ∀ y ∈ baseRecords r k, (sortKey x f).tag = (sortKey y f).tag := by
      intro g f hf x hx y hy
      have hfi : f = fieldIndex := by simpa using hf
      subst hfi
      rw [sortKey_index x (hnz x hx), sortKey_index y (hnz y hy)]
      rfl
    have hA := gbwr_sorted_eq r k cfgIndexAsc (by simp [cfgIndexAsc])
      (htags false)
    have hD := gbwr_sorted_eq r k cfgIndexDesc (by simp [cfgIndexDesc])
      (htags true)
    have hkeyA : ∀ a ∈ baseRecords r k, ∀ b ∈ baseRecords r k,
        fieldLeB false fieldIndex a b = true → a.index ≤ b.index := by
      intro a ha b hb hle
      rw [show fieldLeB false fieldIndex a b
          = pvLeB (sortKey a fieldIndex) (sortKey b fieldIndex) from rfl,
        sortKey_index a (hnz a ha), sortKey_index b (hnz b hb)] at hle
      simpa [pvLeB] using hle
    have hkeyD : ∀ a ∈ baseRecords r k, ∀ b ∈ baseRecords r k,
        fieldLeB true fieldIndex a b = true → b.index ≤ a.index := by
      intro a ha b hb hle
      rw [show fieldLeB true fieldIndex a b
          = pvLeB (sortKey b fieldIndex) (sortKey a fieldIndex) from rfl,
        sortKey_index a (hnz a ha), sortKey_index b (hnz b hb)] at hle
      simpa [pvLeB] using hle
    refine ⟨sortB (fieldLeB false fieldIndex) (baseRecords r k),
      sortB (fieldLeB true fieldIndex) (baseRecords r k),
      hA, sortB_perm _ _, ?_, hD, sortB_perm _ _, ?_, ?_⟩
    · refine List.Pairwise.imp_of_mem ?_
        (sortB_pairwise (fieldLeB_total false fieldIndex)
          (fieldLeB_trans false fieldIndex) (baseRecords r k))
      intro a b ha hb hle
      exact hkeyA a ((mem_sortB _ _ a).mp ha) b ((mem_sortB _ _ b).mp hb) hle
    · refine List.Pairwise.imp_of_mem ?_
        (sortB_pairwise (fieldLeB_total true fieldIndex)
          (fieldLeB_trans true fieldIndex) (baseRecords r k))
      intro a b ha hb hle
      exact hkeyD a ((mem_sortB _ _ a).mp ha) b ((mem_sortB _ _ b).mp hb) hle
    · intro hdist
      have hdistA : List.Pairwise
          (fun x y : WorkflowNodeExecution => x.index ≠ y.index)
          (sortB (fieldLeB false fieldIndex) (baseRecords r k)) :=
        ((sortB_perm _ _).pairwise_iff (fun h => Ne.symm h)).mpr hdist
      have hdistD : List.Pairwise
          (fun x y : WorkflowNodeExecution => x.index ≠ y.index)
          (sortB (fieldLeB true fieldIndex) (baseRecords r k)) :=
        ((sortB_perm _ _).pairwise_iff (fun h => Ne.symm h)).mpr hdist
      have hpA : List.Pairwise (fun x y => x.index ≤ y.index)
          (sortB (fieldLeB false fieldIndex) (baseRecords r k)) := by
        refine List.Pairwise.imp_of_mem ?_
          (sortB_pairwise (fieldLeB_total false fieldIndex)
            (fieldLeB_trans false fieldIndex) (baseRecords r k))
        intro a b ha hb hle
        exact hkeyA a ((mem_sortB _ _ a).mp ha) b ((mem_sortB _ _ b).mp hb) hle
      have hpD : List.Pairwise (fun x y => y.index ≤ x.index)
          (sortB (fieldLeB true fieldIndex) (baseRecords r k)) := by
        refine List.Pairwise.imp_of_mem ?_
          (sortB_pairwise (fieldLeB_total true fieldIndex)
            (fieldLeB_trans true fieldIndex) (baseRecords r k))
        intro a b ha hb hle
        exact hkeyD a ((mem_sortB _ _ a).mp ha) b ((mem_sortB _ _ b).mp hb) hle
      haveI : IsAntisymm WorkflowNodeExecution
          (fun x y => y.index < x.index) :=
        ⟨fun a b h1 h2 => (lt_irrefl _ (h1.trans h2)).elim⟩
      have hsD : List.Pairwise (fun x y : WorkflowNodeExecution =>
          y.index < x.index)
          (sortB (fieldLeB true fieldIndex) (baseRecords r k)) :=
        (hpD.and hdistD).imp fun h =>
          lt_of_le_of_ne h.1 (fun hh => h.2 hh.symm)
      have hsArev : List.Pairwise (fun x y : WorkflowNodeExecution =>
          y.index < x.index)
          (sortB (fieldLeB false fieldIndex) (baseRecords r k)).reverse :=
        List.pairwise_reverse.mpr
          ((hpA.and hdistA).imp fun h => lt_of_le_of_ne h.1 h.2)
      have hperm : sortB (fieldLeB true fieldIndex) (baseRecords r k) ~
          (sortB (fieldLeB false fieldIndex) (baseRecords r k)).reverse :=
        (sortB_perm _ _).trans
          ((sortB_perm _ _).symm.trans
            (List.reverse_perm _).symm)
      exact List.eq_of_perm_of_sorted hperm hsD hsArev
  · decide

theorem C4_order_by_index_witness :
    ∃ resA resD,
      (runSaves [scenE3, scenE1, scenE2]).get_by_workflow_run runKey
        (some cfgIndexAsc) = some resA ∧
      List.Perm resA (baseRecords (runSaves [scenE3, scenE1, scenE2]) runKey) ∧
      List.Pairwise (fun x y => x.index ≤ y.index) resA ∧
      (runSaves [scenE3, scenE1, scenE2]).get_by_workflow_run runKey
        (some cfgIndexDesc) = some resD ∧
      List.Perm resD (baseRecords (runSaves [scenE3, scenE1, scenE2]) runKey) ∧
      List.Pairwise (fun x y => y.index ≤ x.index) resD ∧
      (List.Pairwise (fun x y => x.index ≠ y.index)
          (baseRecords (runSaves [scenE3, scenE1, scenE2]) runKey) →
        resD = resA.reverse) :=
  C4_order_by_index.1 (runSaves [scenE3, scenE1, scenE2]) runKey (by decide)
